import Mathlib

/-!
Verification of the sound-synthesis core of `pysndlib.py` (pysoundanalyser).

The module generates two-channel (stereo) digital audio signals.  A signal is
embedded as a `List (ℝ × ℝ)`: one pair per sample row, first component the
left channel, second the right channel, mirroring the `(nSamples, 2)` numpy
arrays of the source.  Machine floats are embedded as real numbers; Python's
built-in `round` (round half to even) is embedded exactly as `pyRound`.

Every definition below is translated from the body of the corresponding
Python function in `pysndlib.py`; functions that can raise at run time
(`pureTone`'s channel check, `FMTone`'s reference to the undefined name
`fctimeAll`) are embedded with return type `Except String _`.
-/

open scoped Classical

noncomputable section

namespace Pysndlib

/-- Python's built-in `round`, used throughout the source as `int(round(x))`:
nearest integer with ties going to the even integer (banker's rounding). -/
def pyRound (x : ℝ) : ℤ :=
  if Int.fract x = 1 / 2 then (if Even ⌊x⌋ then ⌊x⌋ else ⌊x⌋ + 1) else round x

theorem pyRound_eq_round {x : ℝ} (h : Int.fract x ≠ 1 / 2) : pyRound x = round x := by
  rw [pyRound, if_neg h]

theorem pyRound_intCast (n : ℤ) : pyRound (n : ℝ) = n := by
  have h : Int.fract (n : ℝ) ≠ 1 / 2 := by rw [Int.fract_intCast]; norm_num
  rw [pyRound_eq_round h, round_intCast]

theorem pyRound_natCast (n : ℕ) : pyRound (n : ℝ) = n := by
  have h := pyRound_intCast (n : ℤ)
  push_cast at h
  exact_mod_cast h

theorem pyRound_zero : pyRound (0 : ℝ) = 0 := by
  have h := pyRound_natCast 0
  simpa using h

theorem pyRound_nonneg {x : ℝ} (h : 0 ≤ x) : 0 ≤ pyRound x := by
  have hfl : (0 : ℤ) ≤ ⌊x⌋ + 1 := by
    have := Int.floor_nonneg.mpr h
    omega
  unfold pyRound
  split
  · split
    · exact Int.floor_nonneg.mpr h
    · exact hfl
  · rw [round_eq]
    exact Int.floor_nonneg.mpr (by linarith)

theorem pyRound_sub_nat {x : ℝ} (h : Int.fract x ≠ 1 / 2) (n : ℕ) :
    pyRound (x - n) = pyRound x - n := by
  have hc : ((n : ℤ) : ℝ) = (n : ℝ) := by push_cast; rfl
  have h2 : Int.fract (x - (n : ℝ)) ≠ 1 / 2 := by
    rw [← hc, Int.fract_sub_int]; exact h
  rw [pyRound_eq_round h2, pyRound_eq_round h, ← hc, round_sub_int]

/-- Stereo signal: list of sample rows `(left, right)`, the shallow image of
the `(nSamples, 2)` numpy arrays used by every generator. -/
abbrev Signal := List (ℝ × ℝ)

/-- Shared length bookkeeping: `nSamples = int(round(duration * fs))` after
the millisecond-to-second conversion `duration = duration / 1000`. -/
def nSamplesOf (duration fs : ℝ) : ℕ := (pyRound (duration / 1000 * fs)).toNat

/-- Shared length bookkeeping: `nRamp = int(round(ramp * fs))` after
the millisecond-to-second conversion `ramp = ramp / 1000`. -/
def nRampOf (ramp fs : ℝ) : ℕ := (pyRound (ramp / 1000 * fs)).toNat

/-- Raised-cosine onset/offset envelope applied by the generators: the slice
`[0:nRamp]` is scaled by `(1-cos(pi*timeRamp/nRamp))/2`, the middle slice
`[nRamp:nRamp+nSamples]` is left unscaled, and the final slice is scaled by
`(1+cos(pi*timeRamp/nRamp))/2` where `timeRamp` restarts at `0`. -/
def rampEnv (nRamp nSamples : ℕ) (k : ℕ) : ℝ :=
  if k < nRamp then (1 - Real.cos (Real.pi * k / nRamp)) / 2
  else if k < nRamp + nSamples then 1
  else (1 + Real.cos (Real.pi * (k - (nRamp + nSamples)) / nRamp)) / 2

/-- Per-sample value written by `pureTone` into its selected channel:
`amp * envelope * sin(2*pi*frequency*timeAll + phase)` with
`amp = 10**((level - maxLevel)/20)` and `timeAll[k] = k / fs`. -/
def pureToneVal (frequency phase level duration ramp fs maxLevel : ℝ) (k : ℕ) : ℝ :=
  (10 : ℝ) ^ ((level - maxLevel) / 20) *
    rampEnv (nRampOf ramp fs) (nSamplesOf duration fs) k *
    Real.sin (2 * Real.pi * frequency * (k / fs) + phase)

/-- Body of `pureTone` after its channel guard: allocate `zeros((nTot, 2))`
and fill the selected column(s); for a channel outside the three recognised
strings nothing is written, which cannot happen through `pureTone` itself. -/
def pureToneSig (frequency phase level duration ramp : ℝ) (channel : String)
    (fs maxLevel : ℝ) : Signal :=
  let nTot := nSamplesOf duration fs + 2 * nRampOf ramp fs
  if channel = "Right" then
    (List.range nTot).map fun k =>
      (0, pureToneVal frequency phase level duration ramp fs maxLevel k)
  else if channel = "Left" then
    (List.range nTot).map fun k =>
      (pureToneVal frequency phase level duration ramp fs maxLevel k, 0)
  else if channel = "Both" then
    (List.range nTot).map fun k =>
      (pureToneVal frequency phase level duration ramp fs maxLevel k,
       pureToneVal frequency phase level duration ramp fs maxLevel k)
  else (List.range nTot).map fun _ => (0, 0)

/-- The `pureTone` generator.  The source first checks
`channel not in ["Right", "Left", "Both"]` and raises a `TypeError` with a
descriptive message (quote characters of the original message elided here);
otherwise it builds the signal.  The fallible call is embedded as `Except`. -/
def pureTone (frequency phase level duration ramp : ℝ) (channel : String)
    (fs maxLevel : ℝ) : Except String Signal :=
  if channel = "Right" ∨ channel = "Left" ∨ channel = "Both" then
    Except.ok (pureToneSig frequency phase level duration ramp channel fs maxLevel)
  else Except.error "Invalid channel argument. Channel must be one of Right, Left or Both"

/-- Per-sample value written by `AMTone` into its selected channel:
`amp * (1 + AMDepth*sin(2*pi*AMFreq*timeAll)) * envelope *
sin(2*pi*frequency*timeAll + phase)`. -/
def AMToneVal (frequency AMFreq AMDepth phase level duration ramp fs maxLevel : ℝ)
    (k : ℕ) : ℝ :=
  (10 : ℝ) ^ ((level - maxLevel) / 20) *
    (1 + AMDepth * Real.sin (2 * Real.pi * AMFreq * (k / fs))) *
    rampEnv (nRampOf ramp fs) (nSamplesOf duration fs) k *
    Real.sin (2 * Real.pi * frequency * (k / fs) + phase)

/-- The `AMTone` generator.  Unlike `pureTone` it performs no validity check
on `channel`: for a string other than the three recognised ones none of the
`if`/`elif` branches fires and the freshly allocated `zeros((nTot, 2))`
array is returned unchanged. -/
def AMTone (frequency AMFreq AMDepth phase level duration ramp : ℝ) (channel : String)
    (fs maxLevel : ℝ) : Signal :=
  let nTot := nSamplesOf duration fs + 2 * nRampOf ramp fs
  if channel = "Right" then
    (List.range nTot).map fun k =>
      (0, AMToneVal frequency AMFreq AMDepth phase level duration ramp fs maxLevel k)
  else if channel = "Left" then
    (List.range nTot).map fun k =>
      (AMToneVal frequency AMFreq AMDepth phase level duration ramp fs maxLevel k, 0)
  else if channel = "Both" then
    (List.range nTot).map fun k =>
      (AMToneVal frequency AMFreq AMDepth phase level duration ramp fs maxLevel k,
       AMToneVal frequency AMFreq AMDepth phase level duration ramp fs maxLevel k)
  else (List.range nTot).map fun _ => (0, 0)

/-- The `FMTone` generator.  All three valid-channel branches of the source
evaluate `sin(2*pi*fctimeAll[0:nRamp] + mi*sin(...))`: the name `fctimeAll`
(a missing `*` between `fc` and `timeAll`) is never bound, so the first
slice assignment raises `NameError` before any sample is produced, for any
ramp value including `ramp = 0` (the right-hand side is evaluated even when
the target slice is empty).  For an unrecognised channel no branch fires and
the all-zero array is returned. -/
def FMTone (fc fm mi phase level duration ramp : ℝ) (channel : String)
    (fs maxLevel : ℝ) : Except String Signal :=
  if channel = "Right" ∨ channel = "Left" ∨ channel = "Both" then
    Except.error "NameError: name fctimeAll is not defined"
  else
    Except.ok ((List.range (nSamplesOf duration fs + 2 * nRampOf ramp fs)).map fun _ => (0, 0))

/-- The `getRms` utility: `sqrt(mean(sig*sig))`, where `mean` over the
two-dimensional `(n, 2)` array averages over all `2*n` entries of both
columns jointly. -/
def getRms (sig : Signal) : ℝ :=
  Real.sqrt ((sig.map fun p => p.1 ^ 2 + p.2 ^ 2).sum / (2 * sig.length))

/-- List of `n` all-zero sample rows, the image of `zeros((n, 2))`. -/
def zeroPairs (n : ℕ) : Signal := List.replicate n (0, 0)

/-- The `makeSilence` generator: `zeros((int(round(duration/1000 * fs)), 2))`. -/
def makeSilence (duration fs : ℝ) : Signal := zeroPairs (pyRound (duration / 1000 * fs)).toNat

/-- Row-wise sum of two equally shaped signal segments (numpy `seg2a + seg2b`). -/
def segAdd (a b : Signal) : Signal := List.zipWith (fun p q => p + q) a b

/-- The `addSounds` compositor.  `delay` is in milliseconds;
`nSampSeg1 = round(delay/1000 * fs)`.  When the delay point falls inside
`snd1` the overlap region is summed row-wise, padding `snd2` with zeros if it
ends before `snd1`, or appending the tail of `snd2` otherwise; when the delay
point is at or past the end of `snd1` a silence of duration
`(delay/1000 - len(snd1)/fs) * 1000` ms is inserted between the two sounds.
Nonnegative delays are assumed (negative delay points would make the source
slice with negative bounds). -/
def addSounds (snd1 snd2 : Signal) (delay fs : ℝ) : Signal :=
  let delayS := delay / 1000
  let nSnd1 := snd1.length
  let nSnd2 := snd2.length
  let nSampSeg1 : ℤ := pyRound (delayS * fs)
  if nSampSeg1 < (nSnd1 : ℤ) then
    let d := nSampSeg1.toNat
    let nSampSeg2 := nSnd1 - d
    if nSnd2 < nSampSeg2 then
      snd1.take d ++ segAdd (snd1.drop d) (snd2 ++ zeroPairs (nSampSeg2 - nSnd2))
    else
      (snd1.take d ++ segAdd (snd1.drop d) (snd2.take nSampSeg2)) ++ snd2.drop nSampSeg2
  else
    (snd1 ++ makeSilence ((delayS - nSnd1 / fs) * 1000) fs) ++ snd2

/-- The `imposeLevelGlide` transform.  For `deltaL != 0` it builds the
amplitude array `ampArray` (ones before `startPnt`, the raised-cosine glide
`(x + cos(pi*t/nRamp))/y` on `[startPnt, endPnt)`, `endAmp = 10**(deltaL/20)`
from `endPnt` on) and writes `sig[:,c] * ampArray` into the selected
column(s) of a freshly allocated `zeros((nSamples, 2))` array; the other
column keeps its zeros.  For `deltaL == 0` the input is returned unchanged.
`ampArray` is embedded as the function giving the value stored at each
index, which agrees with the slice assignments of the source whenever
`endPnt <= nSamples` (beyond that the numpy assignment would raise a shape
error). -/
def imposeLevelGlide (sig : Signal) (deltaL startTime endTime : ℝ) (channel : String)
    (fs : ℝ) : Signal :=
  if deltaL ≠ 0 then
    let endAmp : ℝ := (10 : ℝ) ^ (deltaL / 20)
    let startPnt := (pyRound (startTime / 1000 * fs)).toNat
    let endPnt := (pyRound (endTime / 1000 * fs)).toNat
    let nRamp := endPnt - startPnt
    let x := (1 + endAmp) / (1 - endAmp)
    let y := 2 / (1 - endAmp)
    let ampArray : ℕ → ℝ := fun k =>
      if startPnt ≤ k ∧ k < endPnt then (x + Real.cos (Real.pi * (k - startPnt) / nRamp)) / y
      else if endPnt ≤ k then endAmp
      else 1
    (List.range sig.length).map fun k =>
      let p := sig.getD k 0
      if channel = "Right" then (0, p.2 * ampArray k)
      else if channel = "Left" then (p.1 * ampArray k, 0)
      else if channel = "Both" then (p.1 * ampArray k, p.2 * ampArray k)
      else (0, 0)
  else sig

/-- Contribution of harmonic `i` to the running `tone` sum of `complexTone`
at time `t`, for each of the five `harmPhase` modes.  The process-wide
`numpy.random` stream consumed by the `Random` mode is threaded explicitly
as the `oracle` argument (one draw, `random()*2*pi`, per harmonic); the four
deterministic modes ignore it.  An unrecognised `harmPhase` adds nothing. -/
def harmTerm (harmPhase : String) (oracle : ℤ → ℝ) (F0 stretchHz : ℝ) (highHarm i : ℤ)
    (t : ℝ) : ℝ :=
  if harmPhase = "Sine" then Real.sin (2 * Real.pi * (F0 * i + stretchHz) * t)
  else if harmPhase = "Cosine" then Real.cos (2 * Real.pi * (F0 * i + stretchHz) * t)
  else if harmPhase = "Alternating" then
    (if 0 < i % 2 then Real.cos (2 * Real.pi * (F0 * i + stretchHz) * t)
     else Real.sin (2 * Real.pi * (F0 * i + stretchHz) * t))
  else if harmPhase = "Schroeder" then
    Real.sin (2 * Real.pi * (F0 * i + stretchHz) * t + -Real.pi * i * (i - 1) / highHarm)
  else if harmPhase = "Random" then
    Real.sin (2 * Real.pi * (F0 * i + stretchHz) * t + oracle i)
  else 0

/-- The `complexTone` generator: sums `harmTerm` over the loop
`range(lowHarm, highHarm+1)` (split by harmonic parity into `toneOdd` and
`toneEven` for the `Odd Left` / `Odd Right` channel modes), then applies
`amp` and the raised-cosine envelope and routes the result to the selected
column(s).  An unrecognised channel leaves the zero array untouched. -/
def complexTone (F0 : ℝ) (harmPhase : String) (lowHarm highHarm : ℤ)
    (stretch level duration ramp : ℝ) (channel : String) (fs maxLevel : ℝ)
    (oracle : ℤ → ℝ) : Signal :=
  let amp := (10 : ℝ) ^ ((level - maxLevel) / 20)
  let stretchHz := F0 * stretch / 100
  let nS := nSamplesOf duration fs
  let nR := nRampOf ramp fs
  let nTot := nS + 2 * nR
  let tone : ℕ → ℝ := fun k =>
    ∑ i in Finset.Icc lowHarm highHarm, harmTerm harmPhase oracle F0 stretchHz highHarm i (k / fs)
  let toneOdd : ℕ → ℝ := fun k =>
    ∑ i in (Finset.Icc lowHarm highHarm).filter (fun i => 0 < i % 2),
      harmTerm harmPhase oracle F0 stretchHz highHarm i (k / fs)
  let toneEven : ℕ → ℝ := fun k =>
    ∑ i in (Finset.Icc lowHarm highHarm).filter (fun i => ¬ 0 < i % 2),
      harmTerm harmPhase oracle F0 stretchHz highHarm i (k / fs)
  if channel = "Right" then
    (List.range nTot).map fun k => (0, amp * rampEnv nR nS k * tone k)
  else if channel = "Left" then
    (List.range nTot).map fun k => (amp * rampEnv nR nS k * tone k, 0)
  else if channel = "Both" then
    (List.range nTot).map fun k =>
      (amp * rampEnv nR nS k * tone k, amp * rampEnv nR nS k * tone k)
  else if channel = "Odd Left" then
    (List.range nTot).map fun k =>
      (amp * rampEnv nR nS k * toneOdd k, amp * rampEnv nR nS k * toneEven k)
  else if channel = "Odd Right" then
    (List.range nTot).map fun k =>
      (amp * rampEnv nR nS k * toneEven k, amp * rampEnv nR nS k * toneOdd k)
  else (List.range nTot).map fun _ => (0, 0)

/-- Channel handed to the per-harmonic `pureTone` worker by
`complexToneParallel`: passed through for the three plain channels, and for
the `Odd Left` / `Odd Right` modes routed by harmonic parity.  (For a string
outside the five recognised ones the source would hit an unbound
`thisChan`; the claims never exercise that case and the value is passed
through.) -/
def parallelChan (channel : String) (i : ℤ) : String :=
  if channel = "Right" ∨ channel = "Left" ∨ channel = "Both" then channel
  else if 0 < i % 2 then
    (if channel = "Odd Left" then "Left" else if channel = "Odd Right" then "Right" else channel)
  else
    (if channel = "Odd Left" then "Right" else if channel = "Odd Right" then "Left" else channel)

/-- Starting phase handed to the per-harmonic `pureTone` worker by
`complexToneParallel`: `0` for `Sine`, `pi/2` for `Cosine`, `0` for odd and
`pi/2` for even harmonics under `Alternating`, the Schroeder phase
`-pi*i*(i-1)/highHarm`, and an `oracle` draw for `Random`. -/
def parallelPhase (harmPhase : String) (oracle : ℤ → ℝ) (highHarm i : ℤ) : ℝ :=
  if harmPhase = "Sine" then 0
  else if harmPhase = "Cosine" then Real.pi / 2
  else if harmPhase = "Alternating" then (if 0 < i % 2 then 0 else Real.pi / 2)
  else if harmPhase = "Schroeder" then -Real.pi * i * (i - 1) / highHarm
  else if harmPhase = "Random" then oracle i
  else 0

/-- The `complexToneParallel` generator: one `pureTone` task per harmonic
(each worker's channel is always one of the three strings accepted by
`pureTone`'s guard, so its body `pureToneSig` is reached), results summed
into `zeros((nTot, 2))`.  The multiprocessing callback order only permutes
the summands of this commutative sum, so the sum is taken in
harmonic-ascending order. -/
def complexToneParallel (F0 : ℝ) (harmPhase : String) (lowHarm highHarm : ℤ)
    (stretch level duration ramp : ℝ) (channel : String) (fs maxLevel : ℝ)
    (oracle : ℤ → ℝ) : Signal :=
  let stretchHz := F0 * stretch / 100
  let nTot := nSamplesOf duration fs + 2 * nRampOf ramp fs
  (List.range nTot).map fun k =>
    ∑ i in Finset.Icc lowHarm highHarm,
      (pureToneSig (F0 * i + stretchHz) (parallelPhase harmPhase oracle highHarm i)
        level duration ramp (parallelChan channel i) fs maxLevel).getD k 0

/-- Bin `k` of the length-`NN` discrete Fourier transform computed by
`numpy.fft.fft(x, NN)` (the signal is zero-padded to `NN` points, so the sum
over the stored samples suffices). -/
def dftBin (x : List ℂ) (NN k : ℕ) : ℂ :=
  ∑ n in Finset.range x.length,
    x.getD n 0 * Complex.exp (-(2 * Real.pi * n * k / NN) * Complex.I)

/-- Update applied by `phaseShift` to the DFT bin of index `p` holding value
`x`, embedding the source lines `mag = abs(x[pnts])`,
`newPhase = angle(pnts) + phase_shift`,
`x[pnts] = mag * (cos(newPhase) + (1j * sin(newPhase)))`.  Note that the
source takes `angle(pnts)` - the angle of the integer bin-index array
`pnts`, which is `0` for every nonnegative index - not `angle(x[pnts])`,
the phase of the spectrum.  (The mirror bins receive the same update with
`-phase_shift`.) -/
def phaseShiftBin (x : ℂ) (p : ℕ) (shift : ℝ) : ℂ :=
  Complex.abs x *
    (Real.cos (Complex.arg (p : ℂ) + shift) + Complex.I * Real.sin (Complex.arg (p : ℂ) + shift))

/-- Branches of the `phaseRelationship == "NpiSo"` arm of the `makeHuggins`
loop body. -/
inductive HugginsBranch
  | firstBand
  | aboveTop
  | middleBand
deriving DecidableEq

/-- Index set of the `makeHuggins` loop `for i in range(lowHarm, highHarm+1)`. -/
def hugginsLoopRange (lowHarm highHarm : ℤ) : Finset ℤ := Finset.Icc lowHarm highHarm

/-- Branch selected by the `NpiSo` arm of the `makeHuggins` loop body for
index `i`: the source tests `i == lowHarm` first, then `i == highHarm + 1`
(the only branch that would also phase-shift the spectral region above the
highest harmonic band, from `i*F0 + bandwidth/2` up to `fs/2`), and
otherwise takes the between-bands branch. -/
def hugginsNpiSoBranch (lowHarm highHarm i : ℤ) : HugginsBranch :=
  if i = lowHarm then HugginsBranch.firstBand
  else if i = highHarm + 1 then HugginsBranch.aboveTop
  else HugginsBranch.middleBand

/-! Helper lemmas about list indexing, used to reason about the embedded
signals sample by sample.  `getD k 0` reads a sample row, returning the
all-zero row past the end of the signal. -/

theorem getD_map_range {α : Type} (f : ℕ → α) (n k : ℕ) (d : α) :
    ((List.range n).map f).getD k d = if k < n then f k else d := by
  rw [List.getD_eq_getElem?_getD, List.getElem?_map]
  rcases lt_or_ge k n with h | h
  · rw [List.getElem?_range h]
    simp [h]
  · rw [List.getElem?_eq_none (by simpa using h)]
    simp [Nat.not_lt.mpr h]

theorem getD_append {α : Type} (l₁ l₂ : List α) (k : ℕ) (d : α) :
    (l₁ ++ l₂).getD k d = if k < l₁.length then l₁.getD k d else l₂.getD (k - l₁.length) d := by
  rw [List.getD_eq_getElem?_getD, List.getElem?_append]
  split <;> rw [List.getD_eq_getElem?_getD]

theorem getD_take {α : Type} (l : List α) (n k : ℕ) (d : α) :
    (l.take n).getD k d = if k < n then l.getD k d else d := by
  rw [List.getD_eq_getElem?_getD, List.getElem?_take]
  split <;> simp [List.getD_eq_getElem?_getD]

theorem getD_drop {α : Type} (l : List α) (n k : ℕ) (d : α) :
    (l.drop n).getD k d = l.getD (n + k) d := by
  rw [List.getD_eq_getElem?_getD, List.getElem?_drop, List.getD_eq_getElem?_getD]

theorem zeroPairs_getD (n k : ℕ) : (zeroPairs n).getD k (0 : ℝ × ℝ) = 0 := by
  rw [zeroPairs, List.getD_eq_getElem?_getD, List.getElem?_replicate]
  split <;> simp [Prod.ext_iff]

theorem zeroPairs_length (n : ℕ) : (zeroPairs n).length = n := List.length_replicate ..

theorem segAdd_getD (a b : Signal) (h : a.length = b.length) (k : ℕ) :
    (segAdd a b).getD k 0 = a.getD k 0 + b.getD k 0 := by
  rw [segAdd, List.getD_eq_getElem?_getD, List.getElem?_zipWith]
  rcases lt_or_ge k a.length with hk | hk
  · have hb : k < b.length := h ▸ hk
    rw [List.getElem?_eq_getElem hk, List.getElem?_eq_getElem hb]
    simp [List.getD_eq_getElem?_getD, List.getElem?_eq_getElem, hk, hb]
  · have hb : b.length ≤ k := h ▸ hk
    rw [List.getElem?_eq_none hk, List.getElem?_eq_none hb]
    simp [List.getD_eq_getElem?_getD, List.getElem?_eq_none hk, List.getElem?_eq_none hb]

theorem segAdd_length (a b : Signal) : (segAdd a b).length = min a.length b.length :=
  List.length_zipWith ..

theorem pureToneSig_right (frequency phase level duration ramp fs maxLevel : ℝ) :
    pureToneSig frequency phase level duration ramp "Right" fs maxLevel =
      (List.range (nSamplesOf duration fs + 2 * nRampOf ramp fs)).map
        fun k => (0, pureToneVal frequency phase level duration ramp fs maxLevel k) := by
  rw [pureToneSig]
  simp

theorem pureToneSig_left (frequency phase level duration ramp fs maxLevel : ℝ) :
    pureToneSig frequency phase level duration ramp "Left" fs maxLevel =
      (List.range (nSamplesOf duration fs + 2 * nRampOf ramp fs)).map
        fun k => (pureToneVal frequency phase level duration ramp fs maxLevel k, 0) := by
  rw [pureToneSig]
  simp

theorem pureToneSig_both (frequency phase level duration ramp fs maxLevel : ℝ) :
    pureToneSig frequency phase level duration ramp "Both" fs maxLevel =
      (List.range (nSamplesOf duration fs + 2 * nRampOf ramp fs)).map
        fun k => (pureToneVal frequency phase level duration ramp fs maxLevel k,
          pureToneVal frequency phase level duration ramp fs maxLevel k) := by
  rw [pureToneSig]
  simp

/-- Root-mean-square of the right column alone: the active-channel RMS used
to state claim C8 (a spec-side notion, not a function of the source). -/
def channelRmsRight (sig : Signal) : ℝ :=
  Real.sqrt ((sig.map fun p => p.2 ^ 2).sum / sig.length)

/-- C10: for every `lowHarm <= highHarm`, the `makeHuggins` loop over
`range(lowHarm, highHarm+1)` never selects the `NpiSo` branch guarded by
`i == highHarm + 1`, so no phase shift is ever applied to the spectral
region above the highest harmonic band. -/
theorem makeHuggins_npiso_dead_branch (lowHarm highHarm i : ℤ)
    (hlh : lowHarm ≤ highHarm) (hi : i ∈ hugginsLoopRange lowHarm highHarm) :
    hugginsNpiSoBranch lowHarm highHarm i ≠ HugginsBranch.aboveTop := by
  rcases Finset.mem_Icc.mp hi with ⟨h1, h2⟩
  rw [hugginsNpiSoBranch]
  split
  · simp
  · split
    · rename_i hne heq
      omega
    · simp

theorem makeHuggins_npiso_dead_branch_witness :
    (1 : ℤ) ≤ 3 ∧ hugginsNpiSoBranch 1 3 2 ≠ HugginsBranch.aboveTop :=
  ⟨by norm_num,
    makeHuggins_npiso_dead_branch 1 3 2 (by norm_num)
      (by rw [hugginsLoopRange, Finset.mem_Icc]; omega)⟩

/-- C9: for every input signal and `deltaL != 0`, `imposeLevelGlide` with
channel `Right` returns a signal of the same length whose left column is
identically zero, and with channel `Left` one whose right column is
identically zero: the non-selected channel of the input is replaced by the
zeros of the freshly allocated output array, not copied through. -/
theorem imposeLevelGlide_zeroes_nonselected (sig : Signal)
    (deltaL startTime endTime fs : ℝ) (h : deltaL ≠ 0) :
    ((imposeLevelGlide sig deltaL startTime endTime "Right" fs).length = sig.length ∧
      ∀ k, ((imposeLevelGlide sig deltaL startTime endTime "Right" fs).getD k 0).1 = 0) ∧
    ((imposeLevelGlide sig deltaL startTime endTime "Left" fs).length = sig.length ∧
      ∀ k, ((imposeLevelGlide sig deltaL startTime endTime "Left" fs).getD k 0).2 = 0) := by
  refine ⟨⟨?_, ?_⟩, ?_, ?_⟩
  · rw [imposeLevelGlide, if_pos h]
    simp
  · intro k
    rw [imposeLevelGlide, if_pos h]
    rw [getD_map_range]
    split
    · simp
    · simp
  · rw [imposeLevelGlide, if_pos h]
    simp
  · intro k
    rw [imposeLevelGlide, if_pos h]
    rw [getD_map_range]
    split
    · simp
    · simp

theorem imposeLevelGlide_zeroes_nonselected_witness :
    (6 : ℝ) ≠ 0 ∧
    ((imposeLevelGlide [((1 : ℝ), (1 : ℝ))] 6 0 0 "Right" 1).getD 0 0).1 = 0 ∧
    ((imposeLevelGlide [((1 : ℝ), (1 : ℝ))] 6 0 0 "Left" 1).getD 0 0).2 = 0 :=
  ⟨by norm_num,
    (imposeLevelGlide_zeroes_nonselected [((1 : ℝ), (1 : ℝ))] 6 0 0 1 (by norm_num)).1.2 0,
    (imposeLevelGlide_zeroes_nonselected [((1 : ℝ), (1 : ℝ))] 6 0 0 1 (by norm_num)).2.2 0⟩

/-- C8: `getRms` takes the square root of the mean of the squares over all
entries of both columns jointly; hence on a signal whose left column is
identically zero it returns the right-channel RMS divided by `sqrt 2`. -/
theorem getRms_silent_left_channel (sig : Signal) (h : ∀ p ∈ sig, p.1 = 0) :
    getRms sig = channelRmsRight sig / Real.sqrt 2 := by
  have hsum : (sig.map fun p => p.1 ^ 2 + p.2 ^ 2).sum = (sig.map fun p => p.2 ^ 2).sum := by
    induction sig with
    | nil => simp
    | cons a l ih =>
      simp only [List.map_cons, List.sum_cons]
      rw [h a (List.mem_cons_self a l), ih fun p hp => h p (List.mem_cons_of_mem a hp)]
      ring
  have hS : (0 : ℝ) ≤ (sig.map fun p => p.2 ^ 2).sum :=
    List.sum_nonneg fun x hx => by
      rcases List.mem_map.mp hx with ⟨p, hp, rfl⟩
      positivity
  have hn : (0 : ℝ) ≤ (sig.map fun p => p.2 ^ 2).sum / sig.length := by positivity
  rw [getRms, channelRmsRight, hsum]
  have h1 : (sig.map fun p => p.2 ^ 2).sum / (2 * (sig.length : ℝ)) =
      (sig.map fun p => p.2 ^ 2).sum / (sig.length : ℝ) / 2 := by ring
  rw [h1, Real.sqrt_div hn 2]

theorem getRms_silent_left_channel_witness :
    getRms [((0 : ℝ), (1 : ℝ))] = channelRmsRight [((0 : ℝ), (1 : ℝ))] / Real.sqrt 2 :=
  getRms_silent_left_channel [((0 : ℝ), (1 : ℝ))] (by simp)

/-- C6 (code bug): `FMTone` can never return a signal for a valid channel:
every valid-channel branch references the undefined name `fctimeAll`
(a missing `*` between `fc` and `timeAll`), so the call raises `NameError`.
Here the function is evaluated at its own docstring example. -/
theorem FMTone_raises_at_docstring_example :
    FMTone 1000 40 1 0 55 180 10 "Both" 48000 100 =
      Except.error "NameError: name fctimeAll is not defined" := by
  rw [FMTone, if_pos (Or.inr (Or.inr rfl))]

/-- C5 counterexample: `AMTone` called with the unrecognised channel string
`Center` silently returns the untouched all-zero signal (here of length
`nTot = 2`) instead of raising an invalid-argument error. -/
theorem AMTone_invalid_channel_returns_zeros :
    AMTone 1000 20 1 0 65 1000 0 "Center" 2 100 = zeroPairs 2 := by
  have h1 : nSamplesOf (1000 : ℝ) 2 = 2 := by
    have : (1000 : ℝ) / 1000 * 2 = ((2 : ℕ) : ℝ) := by norm_num
    rw [nSamplesOf, this, pyRound_natCast]
    rfl
  have h2 : nRampOf (0 : ℝ) 2 = 0 := by
    have : (0 : ℝ) / 1000 * 2 = ((0 : ℕ) : ℝ) := by norm_num
    rw [nRampOf, this, pyRound_natCast]
    rfl
  rw [AMTone]
  simp only [h1, h2]
  simp [zeroPairs]

/-- C5 (amended): for a channel string outside the accepted enumeration,
`pureTone` fails fast with its descriptive `TypeError`, but `AMTone` has no
such check and silently returns the all-zero signal of the usual length. -/
theorem invalid_channel_pureTone_raises_AMTone_silent
    (frequency AMFreq AMDepth phase level duration ramp fs maxLevel : ℝ) (channel : String)
    (h : ¬(channel = "Right" ∨ channel = "Left" ∨ channel = "Both")) :
    pureTone frequency phase level duration ramp channel fs maxLevel =
      Except.error "Invalid channel argument. Channel must be one of Right, Left or Both" ∧
    AMTone frequency AMFreq AMDepth phase level duration ramp channel fs maxLevel =
      zeroPairs (nSamplesOf duration fs + 2 * nRampOf ramp fs) := by
  push_neg at h
  obtain ⟨h1, h2, h3⟩ := h
  constructor
  · rw [pureTone, if_neg (by tauto)]
  · rw [AMTone]
    simp only [if_neg h1, if_neg h2, if_neg h3]
    rw [List.map_const']
    simp [zeroPairs]

theorem invalid_channel_pureTone_raises_AMTone_silent_witness :
    pureTone 1000 0 65 1000 0 "Center" 2 100 =
      Except.error "Invalid channel argument. Channel must be one of Right, Left or Both" ∧
    AMTone 1000 20 1 0 65 1000 0 "Center" 2 100 =
      zeroPairs (nSamplesOf 1000 2 + 2 * nRampOf 0 2) :=
  invalid_channel_pureTone_raises_AMTone_silent 1000 20 1 0 65 1000 0 2 100 "Center" (by simp)

/-- C1: for a valid channel, `pureTone` returns (without error) a signal of
exactly `round(duration/1000*fs) + 2*round(ramp/1000*fs)` rows, and the
non-selected column (left for channel `Right`, right for channel `Left`) is
identically zero. -/
theorem pureTone_valid_length_and_silent_channel
    (frequency phase level duration ramp fs maxLevel : ℝ) (channel : String)
    (h : channel = "Right" ∨ channel = "Left" ∨ channel = "Both") :
    pureTone frequency phase level duration ramp channel fs maxLevel =
      Except.ok (pureToneSig frequency phase level duration ramp channel fs maxLevel) ∧
    (pureToneSig frequency phase level duration ramp channel fs maxLevel).length =
      (pyRound (duration / 1000 * fs)).toNat + 2 * (pyRound (ramp / 1000 * fs)).toNat ∧
    (channel = "Right" →
      ∀ k, ((pureToneSig frequency phase level duration ramp channel fs maxLevel).getD k 0).1
        = 0) ∧
    (channel = "Left" →
      ∀ k, ((pureToneSig frequency phase level duration ramp channel fs maxLevel).getD k 0).2
        = 0) := by
  refine ⟨by rw [pureTone, if_pos h], ?_, ?_, ?_⟩
  · rw [pureToneSig]
    split_ifs <;> simp [nSamplesOf, nRampOf]
  · intro hr k
    subst hr
    rw [pureToneSig_right, getD_map_range]
    split
    · simp
    · simp
  · intro hl k
    subst hl
    rw [pureToneSig_left, getD_map_range]
    split
    · simp
    · simp

theorem pureTone_valid_length_and_silent_channel_witness :
    pureTone 1 0 100 1000 0 "Right" 4 100 =
      Except.ok (pureToneSig 1 0 100 1000 0 "Right" 4 100) ∧
    (pureToneSig 1 0 100 1000 0 "Right" 4 100).length =
      (pyRound ((1000 : ℝ) / 1000 * 4)).toNat + 2 * (pyRound ((0 : ℝ) / 1000 * 4)).toNat ∧
    ((pureToneSig 1 0 100 1000 0 "Right" 4 100).getD 0 0).1 = 0 := by
  obtain ⟨ha, hb, hc, _⟩ :=
    pureTone_valid_length_and_silent_channel 1 0 100 1000 0 4 100 "Right" (Or.inl rfl)
  exact ⟨ha, hb, hc rfl 0⟩

/-- C2 (code bug): in the `Alternating` phase mode, `complexTone` adds
`cos` for odd harmonics and `sin` for even ones, while
`complexToneParallel` hands phase `0` (hence `sin`) to odd harmonics and
`pi/2` (hence `cos`) to even ones - the opposite assignment - although its
docstring promises that it produces the same results as `complexTone`.
Already at `F0 = 1`, `lowHarm = highHarm = 1`, `stretch = 0`,
`level = maxLevel = 100`, `duration = 1000`, `ramp = 0`, channel `Right`,
`fs = 1` the unique sample is `amp*cos 0 = 1` for the sequential version
and `amp*sin 0 = 0` for the parallel one (the random oracle is irrelevant
in this mode). -/
theorem complexToneParallel_alternating_differs :
    complexTone 1 "Alternating" 1 1 0 100 1000 0 "Right" 1 100 (fun _ => 0) ≠
      complexToneParallel 1 "Alternating" 1 1 0 100 1000 0 "Right" 1 100 (fun _ => 0) := by
  have hN1 : nSamplesOf (1000 : ℝ) 1 = 1 := by
    have e : (1000 : ℝ) / 1000 * 1 = ((1 : ℕ) : ℝ) := by norm_num
    rw [nSamplesOf, e, pyRound_natCast]
    rfl
  have hR1 : nRampOf (0 : ℝ) 1 = 0 := by
    have e : (0 : ℝ) / 1000 * 1 = ((0 : ℕ) : ℝ) := by norm_num
    rw [nRampOf, e, pyRound_natCast]
    rfl
  have hL : ((complexTone 1 "Alternating" 1 1 0 100 1000 0 "Right" 1 100 (fun _ => 0)).getD 0
      (0 : ℝ × ℝ)).2 = 1 := by
    simp [complexTone, hN1, hR1, getD_map_range, Finset.Icc_self, Finset.sum_singleton,
      harmTerm, rampEnv, Real.rpow_natCast]
  have hP : ((complexToneParallel 1 "Alternating" 1 1 0 100 1000 0 "Right" 1 100
      (fun _ => 0)).getD 0 (0 : ℝ × ℝ)).2 = 0 := by
    simp [complexToneParallel, hN1, hR1, getD_map_range, Finset.Icc_self, Finset.sum_singleton,
      parallelChan, parallelPhase, pureToneSig_right, pureToneVal, rampEnv]
  intro heq
  rw [heq, hP] at hL
  exact one_ne_zero hL.symm

/-- Left-channel samples of the concrete 4-sample probe signal used to
exhibit the `phaseShift` bug: an impulse at sample 1, whose 4-point DFT bin
1 is `-i` (magnitude 1, phase `-pi/2`). -/
def probeSignal : List ℂ := [0, 1, 0, 0]

/-- C3 (code bug): with `fs = 4` and `f1 = f2 = 1` Hz, `phaseShift` touches
exactly DFT bin 1 (`start1 = end1 = round(1*4/4) = 1`).  Because the source
computes `newPhase = angle(pnts) + phase_shift` - the angle of the integer
index array, which is `0` - instead of `angle(x[pnts]) + phase_shift`, the
bin's phase is overwritten with `phase_shift` rather than shifted by it.
At bin value `-i` and `shift = pi/4`: (i) the result differs from the
magnitude-preserving rotation `x * exp(i*shift)` that the claim (and the
function's own docstring, "Shift the phases") describes; and (ii)
re-applying the update with `-pi/4` yields `cos(pi/4) - i sin(pi/4)`, not
the original bin, so the shift/unshift round trip cannot restore the
signal. -/
theorem phaseShift_sets_phase_instead_of_shifting :
    (phaseShiftBin (dftBin probeSignal 4 1) 1 (Real.pi / 4) ≠
      dftBin probeSignal 4 1 * Complex.exp ((Real.pi / 4 : ℝ) * Complex.I)) ∧
    phaseShiftBin (phaseShiftBin (dftBin probeSignal 4 1) 1 (Real.pi / 4)) 1
        (-(Real.pi / 4)) ≠
      dftBin probeSignal 4 1 := by
  have sqrt2_pos : (0 : ℝ) < Real.sqrt 2 := Real.sqrt_pos.mpr (by norm_num)
  have hexp : ∀ x : ℝ, Complex.exp ((x : ℂ) * Complex.I) =
      (Real.cos x : ℂ) + (Real.sin x : ℂ) * Complex.I := by
    intro x
    rw [Complex.exp_mul_I]
    simp [Complex.ofReal_cos, Complex.ofReal_sin]
  have hdft : dftBin probeSignal 4 1 = -Complex.I := by
    rw [dftBin]
    have hlen : probeSignal.length = 4 := rfl
    rw [hlen]
    rw [Finset.sum_range_succ, Finset.sum_range_succ, Finset.sum_range_succ,
      Finset.sum_range_succ, Finset.sum_range_zero]
    simp only [probeSignal, List.getD]
    norm_num
    have e : -(2 * (Real.pi : ℂ) / 4 * Complex.I) = ((-(Real.pi / 2) : ℝ) : ℂ) * Complex.I := by
      push_cast
      ring
    rw [e, hexp]
    norm_num [Real.cos_neg, Real.sin_neg, Real.cos_pi_div_two, Real.sin_pi_div_two]
  have harg : Complex.arg ((1 : ℕ) : ℂ) = 0 := by
    norm_num [Complex.arg_one]
  have habs : Complex.abs (-Complex.I) = 1 := by simp
  have hfirst : phaseShiftBin (-Complex.I) 1 (Real.pi / 4) =
      (Real.cos (Real.pi / 4) : ℂ) + Complex.I * (Real.sin (Real.pi / 4) : ℂ) := by
    rw [phaseShiftBin, harg, habs]
    norm_num
  have habs2 : Complex.abs ((Real.cos (Real.pi / 4) : ℂ) +
      Complex.I * (Real.sin (Real.pi / 4) : ℂ)) = 1 := by
    rw [mul_comm Complex.I, Complex.ofReal_cos, Complex.ofReal_sin]
    exact Complex.abs_cos_add_sin_mul_I (Real.pi / 4)
  constructor
  · rw [hdft, hfirst, hexp (Real.pi / 4)]
    intro heq
    have him := congrArg Complex.im heq
    simp [Real.sin_pi_div_four, Real.cos_pi_div_four] at him
    linarith
  · rw [hdft, hfirst, phaseShiftBin, harg, habs2]
    intro heq
    have hre := congrArg Complex.re heq
    simp [Real.cos_neg, Real.cos_pi_div_four] at hre

theorem sum_map_range (f : ℕ → ℝ) (n : ℕ) :
    ((List.range n).map f).sum = ∑ i in Finset.range n, f i := by
  induction n with
  | zero => simp
  | succ m ih =>
    rw [List.range_succ, List.map_append, List.sum_append, Finset.sum_range_succ, ih]
    simp

/-- Dirichlet-kernel style bound on a finite cosine sum, via the geometric
sum of `exp(i*theta)`; this is the quantitative heart of the RMS estimate:
the non-DC part of the sampled squared sinusoid is bounded independently of
the number of samples. -/
theorem abs_sum_cos_le (θ : ℝ) (N : ℕ) (h : Real.sin (θ / 2) ≠ 0) :
    |∑ k in Finset.range N, Real.cos (k * θ)| ≤ 1 / |Real.sin (θ / 2)| := by
  set z : ℂ := Complex.exp ((θ : ℂ) * Complex.I) with hzdef
  have habs_z : Complex.abs z = 1 := Complex.abs_exp_ofReal_mul_I θ
  have hz1 : z ≠ 1 := by
    intro hz
    rcases Complex.exp_eq_one_iff.mp hz with ⟨n, hn⟩
    have hθ : (θ : ℂ) = (n : ℂ) * (2 * Real.pi) := by
      have hI : (Complex.I : ℂ) ≠ 0 := Complex.I_ne_zero
      have e : (θ : ℂ) * Complex.I = ((n : ℂ) * (2 * Real.pi)) * Complex.I := by
        rw [hn]
        ring
      exact mul_right_cancel₀ hI e
    have hθr : θ = (n : ℝ) * (2 * Real.pi) := by exact_mod_cast hθ
    apply h
    rw [hθr, show (n : ℝ) * (2 * Real.pi) / 2 = (n : ℝ) * Real.pi by ring]
    exact Real.sin_int_mul_pi n
  have hre : ∀ k : ℕ, Real.cos (k * θ) = (z ^ k).re := by
    intro k
    rw [hzdef, ← Complex.exp_nat_mul]
    have e : (k : ℂ) * ((θ : ℂ) * Complex.I) = ((k * θ : ℝ) : ℂ) * Complex.I := by
      push_cast
      ring
    rw [e, Complex.exp_ofReal_mul_I_re]
  have hsum : ∑ k in Finset.range N, Real.cos (k * θ)
      = (∑ k in Finset.range N, z ^ k).re := by
    rw [Complex.re_sum]
    exact Finset.sum_congr rfl fun k _ => hre k
  have hz_decomp : z - 1 = ((Real.cos θ - 1 : ℝ) : ℂ) + ((Real.sin θ : ℝ) : ℂ) * Complex.I := by
    rw [hzdef, Complex.exp_mul_I, ← Complex.ofReal_cos, ← Complex.ofReal_sin]
    push_cast
    ring
  have hden : Complex.abs (z - 1) = 2 * |Real.sin (θ / 2)| := by
    have hcos : Real.cos θ = 1 - 2 * Real.sin (θ / 2) ^ 2 := by
      have h1 := Real.sin_sq_eq_half_sub (θ / 2)
      rw [show 2 * (θ / 2) = θ by ring] at h1
      linarith
    have hsq : Complex.abs (z - 1) ^ 2 = (2 * |Real.sin (θ / 2)|) ^ 2 := by
      rw [Complex.sq_abs, hz_decomp, Complex.normSq_apply]
      simp only [Complex.add_re, Complex.add_im, Complex.ofReal_re, Complex.ofReal_im,
        Complex.mul_re, Complex.mul_im, Complex.I_re, Complex.I_im]
      rw [mul_pow, sq_abs]
      nlinarith [Real.sin_sq_add_cos_sq θ]
    exact (pow_left_inj₀ (Complex.abs.nonneg _) (by positivity) two_ne_zero).mp hsq
  have hden_pos : 0 < Complex.abs (z - 1) := by
    rw [hden]
    have hp : 0 < |Real.sin (θ / 2)| := abs_pos.mpr h
    linarith
  have hnum : Complex.abs (z ^ N - 1) ≤ 2 := by
    calc Complex.abs (z ^ N - 1) ≤ Complex.abs (z ^ N) + Complex.abs 1 := by
          rw [sub_eq_add_neg]
          refine le_trans (Complex.abs.add_le _ _) ?_
          simp
      _ = 2 := by
          rw [map_pow, habs_z, one_pow, map_one]
          norm_num
  calc |∑ k in Finset.range N, Real.cos (k * θ)|
      ≤ Complex.abs (∑ k in Finset.range N, z ^ k) := by
        rw [hsum]
        exact Complex.abs_re_le_abs _
    _ = Complex.abs (z ^ N - 1) / Complex.abs (z - 1) := by
        rw [geom_sum_eq hz1, map_div₀]
    _ ≤ 2 / (2 * |Real.sin (θ / 2)|) := by
        rw [← hden]
        exact div_le_div_of_nonneg_right hnum hden_pos.le
    _ = 1 / |Real.sin (θ / 2)| := by
        rw [div_mul_eq_div_div]
        norm_num

/-- C4 counterexample: at `frequency = 1`, `phase = 0`,
`level = maxLevel = 100`, `duration = 1000`, `ramp = 0`, channel `Right`,
`fs = 4` the generated samples are `0, 1, 0, -1` with amplitude `1`, and
`getRms` - which averages over both columns, the silent left one
included - returns exactly `1/2 = amp/2`, while the claimed value
`10^((level-maxLevel)/20)/sqrt 2 = amp/sqrt 2` exceeds it by more than
`1/5`: no numerical tolerance covers the gap. -/
theorem getRms_pureTone_not_inv_sqrt_two :
    getRms (pureToneSig 1 0 100 1000 0 "Right" 4 100) = 1 / 2 ∧
    (10 : ℝ) ^ (((100 : ℝ) - 100) / 20) / Real.sqrt 2 - 1 / 2 > 1 / 5 := by
  have hN : nSamplesOf (1000 : ℝ) 4 = 4 := by
    have e : (1000 : ℝ) / 1000 * 4 = ((4 : ℕ) : ℝ) := by norm_num
    rw [nSamplesOf, e, pyRound_natCast]
    rfl
  have hr0 : nRampOf (0 : ℝ) 4 = 0 := by
    rw [nRampOf]
    norm_num [pyRound_zero]
  constructor
  · have v0 : pureToneVal 1 0 100 1000 0 4 100 0 = 0 := by
      rw [pureToneVal, hN, hr0, rampEnv]
      norm_num
    have v1 : pureToneVal 1 0 100 1000 0 4 100 1 = 1 := by
      rw [pureToneVal, hN, hr0, rampEnv]
      have e1 : 2 * Real.pi * 1 * (((1 : ℕ) : ℝ) / 4) + 0 = Real.pi / 2 := by
        push_cast
        ring
      rw [e1]
      norm_num [Real.rpow_zero, Real.sin_pi_div_two]
    have v2 : pureToneVal 1 0 100 1000 0 4 100 2 = 0 := by
      rw [pureToneVal, hN, hr0, rampEnv]
      have e2 : 2 * Real.pi * 1 * (((2 : ℕ) : ℝ) / 4) + 0 = Real.pi := by
        push_cast
        ring
      rw [e2]
      norm_num [Real.sin_pi]
    have v3 : pureToneVal 1 0 100 1000 0 4 100 3 = -1 := by
      rw [pureToneVal, hN, hr0, rampEnv]
      have e3 : 2 * Real.pi * 1 * (((3 : ℕ) : ℝ) / 4) + 0 = Real.pi + Real.pi / 2 := by
        push_cast
        ring
      rw [e3, Real.sin_add]
      norm_num [Real.rpow_zero, Real.sin_pi_div_two, Real.cos_pi_div_two, Real.sin_pi,
        Real.cos_pi]
    rw [pureToneSig_right, hN, hr0]
    norm_num
    rw [getRms, List.map_map, sum_map_range, List.length_map, List.length_range]
    rw [Finset.sum_range_succ, Finset.sum_range_succ, Finset.sum_range_succ,
      Finset.sum_range_succ, Finset.sum_range_zero]
    simp only [Function.comp]
    norm_num [v0, v1, v2, v3]
    rw [show (4 : ℝ) = (2 : ℝ) ^ 2 by norm_num, Real.sqrt_sq (by norm_num : (0 : ℝ) ≤ 2)]
    norm_num
  · have hs2 : Real.sqrt 2 ^ 2 = 2 := Real.sq_sqrt (by norm_num)
    have hpos : 0 < Real.sqrt 2 := Real.sqrt_pos.mpr (by norm_num)
    have hu : (Real.sqrt 2)⁻¹ = Real.sqrt 2 / 2 := by
      field_simp
    have ht : Real.sqrt 2 > 7 / 5 := by nlinarith [hs2, hpos]
    norm_num [Real.rpow_zero, hu]
    linarith

/-- C4 (amended): with `phase = 0`, `ramp = 0` and channel `Right`,
`getRms (pureTone ...)` is `10^((level-maxLevel)/20) / 2` - the active
channel's sinusoid RMS `amp/sqrt 2` divided by a further `sqrt 2`, because
`getRms` averages over both columns and the left one is silent - up to the
explicit sampling error `amp / (2*N*|sin(2*pi*frequency/fs)|)`, which
quantifies the "within numerical tolerance" proviso (it vanishes as the
number of periods grows).  `N = round(duration/1000*fs)` is the sample
count. -/
theorem getRms_pureTone_approx_half_amp
    (frequency level duration fs maxLevel : ℝ)
    (hN : 1 ≤ nSamplesOf duration fs)
    (hs : Real.sin (2 * Real.pi * frequency / fs) ≠ 0) :
    |getRms (pureToneSig frequency 0 level duration 0 "Right" fs maxLevel) -
        (10 : ℝ) ^ ((level - maxLevel) / 20) / 2| ≤
      (10 : ℝ) ^ ((level - maxLevel) / 20) /
        (2 * nSamplesOf duration fs * |Real.sin (2 * Real.pi * frequency / fs)|) := by
  set amp : ℝ := (10 : ℝ) ^ ((level - maxLevel) / 20) with hampdef
  have hamp : 0 < amp := Real.rpow_pos_of_pos (by norm_num) _
  set a : ℝ := 2 * Real.pi * frequency / fs with hadef
  set N : ℕ := nSamplesOf duration fs with hNdef
  have hr0 : nRampOf 0 fs = 0 := by
    rw [nRampOf]
    norm_num [pyRound_zero]
  have hNpos : (0 : ℝ) < N := by exact_mod_cast hN
  have hsig : pureToneSig frequency 0 level duration 0 "Right" fs maxLevel =
      (List.range N).map fun k => (0, pureToneVal frequency 0 level duration 0 fs maxLevel k) := by
    rw [pureToneSig_right, hr0, ← hNdef]
    norm_num
  have hval : ∀ k ∈ Finset.range N,
      (0 : ℝ) ^ 2 + pureToneVal frequency 0 level duration 0 fs maxLevel k ^ 2 =
        amp ^ 2 * Real.sin (a * k) ^ 2 := by
    intro k hk
    have hk' : k < N := Finset.mem_range.mp hk
    rw [pureToneVal, hr0, ← hNdef]
    rw [rampEnv, if_neg (by omega), if_pos (by omega)]
    have e : 2 * Real.pi * frequency * ((k : ℝ) / fs) + 0 = a * k := by
      rw [hadef]
      ring
    rw [e, ← hampdef]
    ring
  have hsum : ((pureToneSig frequency 0 level duration 0 "Right" fs maxLevel).map
      fun p => p.1 ^ 2 + p.2 ^ 2).sum
      = amp ^ 2 * ∑ k in Finset.range N, Real.sin (a * k) ^ 2 := by
    rw [hsig, List.map_map, sum_map_range, Finset.mul_sum]
    exact Finset.sum_congr rfl hval
  have hlen : (pureToneSig frequency 0 level duration 0 "Right" fs maxLevel).length = N := by
    rw [hsig, List.length_map, List.length_range]
  set C : ℝ := ∑ k in Finset.range N, Real.cos (k * (2 * a)) with hCdef
  have hsin_sq : ∑ k in Finset.range N, Real.sin (a * k) ^ 2 = N / 2 - C / 2 := by
    have e : ∀ k ∈ Finset.range N,
        Real.sin (a * k) ^ 2 = 1 / 2 - Real.cos (k * (2 * a)) / 2 := by
      intro k _
      rw [Real.sin_sq_eq_half_sub, show 2 * (a * k) = (k : ℝ) * (2 * a) by ring]
    rw [Finset.sum_congr rfl e, Finset.sum_sub_distrib, Finset.sum_const, Finset.card_range,
      ← Finset.sum_div, ← hCdef]
    ring
  have hCb : |C| ≤ 1 / |Real.sin a| := by
    have h2 := abs_sum_cos_le (2 * a) N (by rw [show 2 * a / 2 = a by ring]; exact hs)
    rw [show 2 * a / 2 = a by ring] at h2
    exact h2
  have hT0 : (0 : ℝ) ≤ ∑ k in Finset.range N, Real.sin (a * k) ^ 2 :=
    Finset.sum_nonneg fun k _ => sq_nonneg _
  have hrms : getRms (pureToneSig frequency 0 level duration 0 "Right" fs maxLevel) =
      amp * Real.sqrt ((N / 2 - C / 2) / (2 * N)) := by
    rw [getRms, hsum, hlen, hsin_sq]
    rw [show amp ^ 2 * (N / 2 - C / 2) / (2 * (N : ℝ)) =
        amp ^ 2 * ((N / 2 - C / 2) / (2 * N)) by ring]
    rw [Real.sqrt_mul (sq_nonneg amp), Real.sqrt_sq hamp.le]
  set r : ℝ := Real.sqrt ((N / 2 - C / 2) / (2 * N)) with hrdef
  have hrnn : 0 ≤ r := Real.sqrt_nonneg _
  have hrsq : r ^ 2 = (N / 2 - C / 2) / (2 * N) := by
    rw [hrdef, Real.sq_sqrt]
    have hnn : (0 : ℝ) ≤ N / 2 - C / 2 := by
      rw [← hsin_sq]
      exact hT0
    positivity
  have hsinpos : 0 < |Real.sin a| := abs_pos.mpr hs
  have hquarter : r ^ 2 - 1 / 4 = -C / (4 * N) := by
    rw [hrsq]
    field_simp
    ring
  have hq_bound : |r ^ 2 - 1 / 4| ≤ 1 / (4 * N * |Real.sin a|) := by
    rw [hquarter, abs_div, abs_neg]
    rw [abs_of_pos (by positivity : (0 : ℝ) < 4 * N)]
    rw [div_le_div_iff₀ (by positivity) (by positivity)]
    calc |C| * (4 * N * |Real.sin a|)
        ≤ (1 / |Real.sin a|) * (4 * N * |Real.sin a|) := by
          apply mul_le_mul_of_nonneg_right hCb
          positivity
      _ = 1 * (4 * (N : ℝ)) := by
          field_simp
  have hr_half : |r - 1 / 2| ≤ 1 / (2 * N * |Real.sin a|) := by
    have key : |r - 1 / 2| * (r + 1 / 2) = |r ^ 2 - 1 / 4| := by
      rw [show r ^ 2 - 1 / 4 = (r - 1 / 2) * (r + 1 / 2) by ring, abs_mul,
        abs_of_nonneg (by linarith : (0 : ℝ) ≤ r + 1 / 2)]
    have hN0 : (N : ℝ) ≠ 0 := hNpos.ne'
    have hs0 : |Real.sin a| ≠ 0 := hsinpos.ne'
    have step1 : |r - 1 / 2| * (1 / 2) ≤ 1 / (4 * N * |Real.sin a|) := by
      calc |r - 1 / 2| * (1 / 2) ≤ |r - 1 / 2| * (r + 1 / 2) := by
            apply mul_le_mul_of_nonneg_left (by linarith) (abs_nonneg _)
        _ = |r ^ 2 - 1 / 4| := key
        _ ≤ _ := hq_bound
    have e2 : 2 * (1 / (4 * (N : ℝ) * |Real.sin a|)) = 1 / (2 * N * |Real.sin a|) := by
      field_simp
      ring
    linarith
  rw [hrms]
  rw [show amp * r - amp / 2 = amp * (r - 1 / 2) by ring, abs_mul, abs_of_pos hamp]
  rw [show amp / (2 * N * |Real.sin a|) = amp * (1 / (2 * N * |Real.sin a|)) by ring]
  exact mul_le_mul_of_nonneg_left hr_half hamp.le

theorem getRms_pureTone_approx_half_amp_witness :
    1 ≤ nSamplesOf 1000 4 ∧ Real.sin (2 * Real.pi * 1 / 4) ≠ 0 ∧
    |getRms (pureToneSig 1 0 100 1000 0 "Right" 4 100) -
        (10 : ℝ) ^ (((100 : ℝ) - 100) / 20) / 2| ≤
      (10 : ℝ) ^ (((100 : ℝ) - 100) / 20) /
        (2 * nSamplesOf 1000 4 * |Real.sin (2 * Real.pi * 1 / 4)|) := by
  have hsin : Real.sin (2 * Real.pi * 1 / 4) ≠ 0 := by
    rw [show 2 * Real.pi * 1 / 4 = Real.pi / 2 by ring, Real.sin_pi_div_two]
    norm_num
  have hN : 1 ≤ nSamplesOf (1000 : ℝ) 4 := by
    have e : (1000 : ℝ) / 1000 * 4 = ((4 : ℕ) : ℝ) := by norm_num
    rw [nSamplesOf, e, pyRound_natCast]
    norm_num
  exact ⟨hN, hsin, getRms_pureTone_approx_half_amp 1 100 1000 4 100 hN hsin⟩

theorem pyRound_five_halves : pyRound ((5 : ℝ) / 2) = 2 := by
  have hfr : Int.fract ((5 : ℝ) / 2) = 1 / 2 := by
    rw [Int.fract]
    norm_num [Int.floor_eq_iff]
  have hfl : ⌊(5 : ℝ) / 2⌋ = 2 := by norm_num [Int.floor_eq_iff]
  rw [pyRound, if_pos hfr, hfl, if_pos (by decide)]

theorem pyRound_three_halves : pyRound ((3 : ℝ) / 2) = 2 := by
  have hfr : Int.fract ((3 : ℝ) / 2) = 1 / 2 := by
    rw [Int.fract]
    norm_num [Int.floor_eq_iff]
  have hfl : ⌊(3 : ℝ) / 2⌋ = 1 := by norm_num [Int.floor_eq_iff]
  rw [pyRound, if_pos hfr, hfl, if_neg (by decide)]
  norm_num

/-- C7 counterexample: with `snd1` and `snd2` one sample each, `delay = 1250`
ms and `fs = 2` (so `delay/1000*fs = 2.5` exactly, also in binary floating
point), Python's `round(2.5) = 2` puts the delay point past `snd1`, and the
gap branch re-rounds `round((delay/1000 - len(snd1)/fs)*fs) = round(1.5) = 2`
silence samples - one more than `round(2.5) - len(snd1) = 1` - so the result
has `4` rows while the claimed formula
`max(len(snd1), round(delay/1000*fs) + len(snd2))` gives `3`. -/
theorem addSounds_length_formula_fails_at_half_integer :
    (addSounds [((0 : ℝ), (0 : ℝ))] [((0 : ℝ), (0 : ℝ))] 1250 2).length = 4 ∧
    max (1 : ℕ) ((pyRound ((1250 : ℝ) / 1000 * 2)).toNat + 1) = 3 := by
  have e1 : (1250 : ℝ) / 1000 * 2 = 5 / 2 := by norm_num
  constructor
  · have hres : addSounds [((0 : ℝ), (0 : ℝ))] [((0 : ℝ), (0 : ℝ))] 1250 2 =
        ([((0 : ℝ), (0 : ℝ))] ++
          makeSilence ((1250 / 1000 -
            (List.length [((0 : ℝ), (0 : ℝ))] : ℝ) / 2) * 1000) 2) ++
          [((0 : ℝ), (0 : ℝ))] := by
      simp only [addSounds]
      rw [if_neg]
      rw [e1, pyRound_five_halves]
      decide
    rw [hres]
    have e2 : ((1250 : ℝ) / 1000 -
        (List.length [((0 : ℝ), (0 : ℝ))] : ℝ) / 2) * 1000 / 1000 * 2 = 3 / 2 := by
      norm_num
    rw [makeSilence, e2, pyRound_three_halves]
    simp [zeroPairs]
  · rw [e1, pyRound_five_halves]
    rfl

/-- C7 (amended): for nonnegative delay, positive sampling rate, and
`delay/1000*fs` not an exact half-integer (where Python's half-to-even
rounding, applied a second time in the gap branch, can change the silence
length by one sample - see the counterexample), `addSounds` returns a
signal of length `max(len(snd1), round(delay/1000*fs) + len(snd2))` whose
row `k` is the row `k` of `snd1` plus the row `k - delayPoint` of `snd2`
(each taken as zero outside its signal): overlapping samples are summed,
and `delay = 0` is plain superposition padded to the longer input. -/
theorem addSounds_overlay_spec (snd1 snd2 : Signal) (delay fs : ℝ)
    (hd : 0 ≤ delay) (hfs : 0 < fs) (hfr : Int.fract (delay / 1000 * fs) ≠ 1 / 2) :
    (addSounds snd1 snd2 delay fs).length =
      max snd1.length ((pyRound (delay / 1000 * fs)).toNat + snd2.length) ∧
    ∀ k, (addSounds snd1 snd2 delay fs).getD k 0 =
      snd1.getD k 0 +
        (if (pyRound (delay / 1000 * fs)).toNat ≤ k then
          snd2.getD (k - (pyRound (delay / 1000 * fs)).toNat) 0
        else 0) := by
  set n1 := snd1.length with hn1
  set n2 := snd2.length with hn2
  set D : ℤ := pyRound (delay / 1000 * fs) with hD
  have hDnn : 0 ≤ D := pyRound_nonneg (by positivity)
  set d : ℕ := D.toNat with hdd
  have hdD : (d : ℤ) = D := Int.toNat_of_nonneg hDnn
  by_cases h1 : D < (n1 : ℤ)
  · have hd1 : d < n1 := by omega
    by_cases h2 : n2 < n1 - d
    · have hres : addSounds snd1 snd2 delay fs =
          snd1.take d ++ segAdd (snd1.drop d) (snd2 ++ zeroPairs (n1 - d - n2)) := by
        simp only [addSounds]
        rw [if_pos h1, if_pos h2]
      have hlen2 : (snd1.drop d).length = (snd2 ++ zeroPairs (n1 - d - n2)).length := by
        rw [List.length_drop, List.length_append, zeroPairs_length, ← hn1, ← hn2]
        omega
      constructor
      · rw [hres, List.length_append, List.length_take, segAdd_length, List.length_drop,
          List.length_append, zeroPairs_length, ← hn1, ← hn2]
        omega
      · intro k
        rw [hres, getD_append, List.length_take]
        rw [Nat.min_eq_left (by omega : d ≤ snd1.length)]
        by_cases hk : k < d
        · rw [if_pos hk, getD_take, if_pos hk, if_neg (by omega), add_zero]
        · rw [if_neg hk, segAdd_getD _ _ hlen2, getD_drop,
            show d + (k - d) = k by omega, getD_append]
          by_cases hk2 : k - d < n2
          · rw [if_pos (by rw [← hn2]; omega), if_pos (by omega)]
          · rw [if_neg (by rw [← hn2]; omega), zeroPairs_getD, if_pos (by omega),
              List.getD_eq_default snd2 _ (by rw [← hn2]; omega)]
    · have hres : addSounds snd1 snd2 delay fs =
          (snd1.take d ++ segAdd (snd1.drop d) (snd2.take (n1 - d))) ++
            snd2.drop (n1 - d) := by
        simp only [addSounds]
        rw [if_pos h1, if_neg h2]
      have hlen2 : (snd1.drop d).length = (snd2.take (n1 - d)).length := by
        rw [List.length_drop, List.length_take, ← hn1, ← hn2]
        omega
      have hinlen : (snd1.take d ++ segAdd (snd1.drop d) (snd2.take (n1 - d))).length
          = n1 := by
        rw [List.length_append, List.length_take, segAdd_length, List.length_drop,
          List.length_take, ← hn1, ← hn2]
        omega
      constructor
      · rw [hres, List.length_append, hinlen, List.length_drop, ← hn2]
        omega
      · intro k
        rw [hres, getD_append, hinlen]
        by_cases hk : k < n1
        · rw [if_pos hk, getD_append, List.length_take,
            Nat.min_eq_left (by omega : d ≤ snd1.length)]
          by_cases hkd : k < d
          · rw [if_pos hkd, getD_take, if_pos hkd, if_neg (by omega), add_zero]
          · rw [if_neg hkd, segAdd_getD _ _ hlen2, getD_drop,
              show d + (k - d) = k by omega, getD_take, if_pos (by omega),
              if_pos (by omega)]
        · rw [if_neg hk, getD_drop, show n1 - d + (k - n1) = k - d by omega,
            if_pos (by omega), List.getD_eq_default snd1 _ (by rw [← hn1]; omega), zero_add]
  · have hsilarg : (delay / 1000 - (n1 : ℝ) / fs) * 1000 / 1000 * fs
        = delay / 1000 * fs - (n1 : ℕ) := by
      field_simp
      ring
    have hsil : makeSilence ((delay / 1000 - (n1 : ℝ) / fs) * 1000) fs
        = zeroPairs (d - n1) := by
      rw [makeSilence, hsilarg, pyRound_sub_nat hfr, ← hD]
      congr 1
      omega
    have hres : addSounds snd1 snd2 delay fs =
        (snd1 ++ zeroPairs (d - n1)) ++ snd2 := by
      simp only [addSounds]
      rw [if_neg h1, ← hn1, hsil]
    have hn1d : n1 ≤ d := by omega
    constructor
    · rw [hres, List.length_append, List.length_append, zeroPairs_length, ← hn1, ← hn2]
      omega
    · intro k
      rw [hres, getD_append, getD_append, List.length_append, zeroPairs_length, ← hn1]
      by_cases hk : k < n1
      · rw [if_pos (by omega), if_pos hk, if_neg (by omega), add_zero]
      · by_cases hk2 : k < d
        · rw [if_pos (by omega), if_neg hk, zeroPairs_getD, if_neg (by omega),
            List.getD_eq_default snd1 _ (by rw [← hn1]; omega), add_zero]
        · rw [if_neg (by omega), if_pos (by omega),
            show k - (n1 + (d - n1)) = k - d by omega,
            List.getD_eq_default snd1 _ (by rw [← hn1]; omega), zero_add]

theorem addSounds_overlay_spec_witness :
    (0 : ℝ) ≤ 0 ∧ (0 : ℝ) < 1 ∧
    (addSounds [((1 : ℝ), (2 : ℝ))] [((3 : ℝ), (4 : ℝ))] 0 1).length =
      max (List.length [((1 : ℝ), (2 : ℝ))])
        ((pyRound ((0 : ℝ) / 1000 * 1)).toNat + List.length [((3 : ℝ), (4 : ℝ))]) ∧
    (addSounds [((1 : ℝ), (2 : ℝ))] [((3 : ℝ), (4 : ℝ))] 0 1).getD 0 0 =
      [((1 : ℝ), (2 : ℝ))].getD 0 0 +
        (if (pyRound ((0 : ℝ) / 1000 * 1)).toNat ≤ 0 then
          [((3 : ℝ), (4 : ℝ))].getD (0 - (pyRound ((0 : ℝ) / 1000 * 1)).toNat) 0
        else 0) := by
  have hfr : Int.fract ((0 : ℝ) / 1000 * 1) ≠ 1 / 2 := by
    have e : (0 : ℝ) / 1000 * 1 = 0 := by norm_num
    rw [e, Int.fract_zero]
    norm_num
  obtain ⟨hl, hs⟩ :=
    addSounds_overlay_spec [((1 : ℝ), (2 : ℝ))] [((3 : ℝ), (4 : ℝ))] 0 1 le_rfl one_pos hfr
  exact ⟨le_rfl, one_pos, hl, hs 0⟩

end Pysndlib
